import Mathlib

/-!
Shallow embedding of the Rust_Compiler backend: IR data model, the three
optimizer passes with their fixpoint driver, the IR generator, the lowering
to a stack-machine bytecode, and the virtual machine interpreter.
Each definition mirrors the corresponding Rust item in src/.
-/

namespace Compiler

/-- Values used in IR instructions (enum IRValue in intermediate_code_generator.rs). -/
inductive IRValue
  | Int (n : Int)
  | Bool (b : Bool)
  | Str (s : String)
  | Var (name : String)
  | Temp (name : String)
deriving DecidableEq, Repr

/-- IR instructions (enum IRInstr in intermediate_code_generator.rs). -/
inductive IRInstr
  | Assign (target : String) (value : IRValue)
  | BinaryOp (result left op right : String)
  | Return (name : String)
deriving DecidableEq, Repr

/-- Association-list model of HashMap removal: drop the binding for a key. -/
def mapRemove (m : List (String × α)) (k : String) : List (String × α) :=
  m.filter (fun p => !(p.1 == k))

/-- Association-list model of HashMap insert: overwrite any binding for the key. -/
def mapInsert (m : List (String × α)) (k : String) (v : α) : List (String × α) :=
  (k, v) :: mapRemove m k

/-- One step of the constant-fold-and-propagate scan (the loop body of
constant_fold_and_propagate in optimizer.rs); the state is the name-to-constant
map together with the emitted output so far.  The divide-by-zero and
unrecognized-operator branches of the integer arm re-emit the instruction and
`continue`, leaving the constant map untouched, exactly as the source does.
The source's BinaryOp match arms written after its catch-all arm are
unreachable in Rust and therefore have no counterpart here. -/
def foldStep (st : List (String × IRValue) × List IRInstr) (instr : IRInstr) :
    List (String × IRValue) × List IRInstr :=
  let consts := st.1
  let acc := st.2
  match instr with
  | .Assign target value =>
      let resolved : Option IRValue :=
        match value with
        | .Int _ | .Bool _ | .Str _ => some value
        | .Temp t | .Var t => List.lookup t consts
      match resolved with
      | some cv => (mapInsert consts target cv, acc ++ [.Assign target cv])
      | none => (mapRemove consts target, acc ++ [.Assign target value])
  | .BinaryOp result left op right =>
      match List.lookup left consts, List.lookup right consts with
      | some (.Int a), some (.Int b) =>
          if op = "+" then
            (mapInsert consts result (.Int (a + b)),
              acc ++ [.Assign result (.Int (a + b))])
          else if op = "-" then
            (mapInsert consts result (.Int (a - b)),
              acc ++ [.Assign result (.Int (a - b))])
          else if op = "*" then
            (mapInsert consts result (.Int (a * b)),
              acc ++ [.Assign result (.Int (a * b))])
          else if op = "/" then
            if b = 0 then
              (consts, acc ++ [.BinaryOp result left op right])
            else
              (mapInsert consts result (.Int (Int.tdiv a b)),
                acc ++ [.Assign result (.Int (Int.tdiv a b))])
          else
            (consts, acc ++ [.BinaryOp result left op right])
      | some (.Str a), some (.Str b) =>
          if op = "+" then
            (mapInsert consts result (.Str (a ++ b)),
              acc ++ [.Assign result (.Str (a ++ b))])
          else
            (mapRemove consts result, acc ++ [.BinaryOp result left op right])
      | some _, some _ =>
          (mapRemove consts result, acc ++ [.BinaryOp result left op right])
      | _, _ =>
          (mapRemove consts result, acc ++ [.BinaryOp result left op right])
  | .Return name =>
      match List.lookup name consts with
      | some cv =>
          let tmp := "t_fold_return_" ++ name
          (consts, acc ++ [.Assign tmp cv, .Return tmp])
      | none => (consts, acc ++ [.Return name])

/-- Constant folding and propagation pass (constant_fold_and_propagate in optimizer.rs). -/
def constant_fold_and_propagate (code : List IRInstr) : List IRInstr :=
  (code.foldl foldStep ([], [])).2

/-- First pass of copy propagation: collect direct copy assignments into a map
name-to-source, overwriting on later assignments (copy_propagation in optimizer.rs). -/
def buildCopyMap (code : List IRInstr) : List (String × String) :=
  code.foldl
    (fun m instr =>
      match instr with
      | .Assign target value =>
          match value with
          | .Temp src | .Var src => mapInsert m target src
          | _ => mapRemove m target
      | _ => m)
    []

/-- Transitive copy resolution with cycle detection (the resolve_copy closure in
copy_propagation).  The Rust while-loop is rendered with explicit fuel; the
chosen fuel is proved sufficient below (resolve terminates on every map). -/
def resolveCopyAux (m : List (String × String)) : Nat → List String → String → String
  | 0, _, name => name
  | fuel + 1, seen, name =>
      match List.lookup name m with
      | none => name
      | some next => if name ∈ seen then name else resolveCopyAux m fuel (name :: seen) next

/-- Resolve a name through the copy map transitively (resolve_copy in optimizer.rs). -/
def resolve_copy (m : List (String × String)) (name : String) : String :=
  resolveCopyAux m (m.length + 1) [] name

/-- Rewrite of a single instruction in copy propagation's second pass: uses are
replaced by their resolved names; only an Assign right-hand side keeps the
original when resolution would equal the instruction's own target. -/
def copyRewrite (m : List (String × String)) : IRInstr → IRInstr
  | .Assign target value =>
      let newVal :=
        match value with
        | .Temp t | .Var t =>
            let resolved := resolve_copy m t
            if resolved = target then value else .Var resolved
        | _ => value
      .Assign target newVal
  | .BinaryOp res l op r => .BinaryOp res (resolve_copy m l) op (resolve_copy m r)
  | .Return name => .Return (resolve_copy m name)

/-- Copy propagation pass (copy_propagation in optimizer.rs): build the copy map
from the whole list, then rewrite every instruction in order. -/
def copy_propagation (code : List IRInstr) : List IRInstr :=
  let copyMap := buildCopyMap code
  code.foldl (fun acc instr => acc ++ [copyRewrite copyMap instr]) []

/-- Number of uses of a name contributed by one instruction: Assign right-hand
sides that are name references, both BinaryOp operands, and Return operands
(the use-count scan in dead_code_elimination). -/
def useOcc (name : String) : IRInstr → Nat
  | .Assign _ value =>
      match value with
      | .Var n | .Temp n => if n = name then 1 else 0
      | _ => 0
  | .BinaryOp _ l _ r => (if l = name then 1 else 0) + (if r = name then 1 else 0)
  | .Return n => if n = name then 1 else 0

/-- Total use count of a name in an instruction list. -/
def useCount (code : List IRInstr) (name : String) : Nat :=
  (code.map (useOcc name)).sum

/-- Heuristic from optimizer.rs: a name starting with the letter t followed
only by ASCII digits is treated as a compiler temporary. -/
def is_temporary_name (name : String) : Bool :=
  match name.data with
  | [] => false
  | c :: rest => c == 't' && rest.all (fun ch => ch.isDigit)

/-- One step of a dead-code-elimination round: skip an Assign whose target has
zero uses in the round's input and is a temporary name, keep everything else;
the Bool records whether anything was removed. -/
def dceStep (code : List IRInstr) (st : List IRInstr × Bool) : IRInstr → List IRInstr × Bool
  | .Assign target v =>
      if useCount code target == 0 && is_temporary_name target then (st.1, true)
      else (st.1 ++ [.Assign target v], st.2)
  | other => (st.1 ++ [other], st.2)

/-- One round of dead-code elimination (the loop body of dead_code_elimination
in optimizer.rs): returns the surviving instructions and whether anything was
removed this round. -/
def dceRound (code : List IRInstr) : List IRInstr × Bool :=
  code.foldl (dceStep code) ([], false)

/-- The keep condition of a dead-code-elimination round: an Assign survives
unless its target has zero uses in the round's input and is a temporary name. -/
def dceKeep (code : List IRInstr) : IRInstr → Bool
  | .Assign target _ => !(useCount code target == 0 && is_temporary_name target)
  | _ => true

/-- The removal loop of dead_code_elimination, with fuel standing in for the
Rust loop; each removing round strictly shrinks the list, so the fuel chosen
in dead_code_elimination is proved sufficient below. -/
def dceLoop : Nat → List IRInstr → List IRInstr
  | 0, code => code
  | fuel + 1, code =>
      let round := dceRound code
      if round.2 then dceLoop fuel round.1 else round.1

/-- Dead-code elimination pass (dead_code_elimination in optimizer.rs). -/
def dead_code_elimination (code : List IRInstr) : List IRInstr :=
  dceLoop (code.length + 1) code

/-- One iteration of the optimizer pipeline: fold, copy propagation, DCE. -/
def optimizeStep (code : List IRInstr) : List IRInstr :=
  dead_code_elimination (copy_propagation (constant_fold_and_propagate code))

/-- The optimizer driver (optimize_ir in optimizer.rs): repeat the three-pass
pipeline until the instruction count is unchanged over one full iteration.
The Rust loop is unbounded; here it takes explicit fuel and yields none when
the fuel is exhausted before the length stabilizes. -/
def optimize_ir : Nat → List IRInstr → Option (List IRInstr)
  | 0, _ => none
  | fuel + 1, code =>
      let code' := optimizeStep code
      if code'.length = code.length then some code' else optimize_ir fuel code'

/-- VM instruction set (enum VMInstr in target_code_generator.rs); the Rust
enum has exactly these opcodes, with no jump instructions. -/
inductive VMInstr
  | PushInt (n : Int)
  | PushBool (b : Bool)
  | PushStr (s : String)
  | Load (name : String)
  | Store (name : String)
  | Add
  | Sub
  | Mul
  | Div
  | Concat
  | Ret
deriving DecidableEq, Repr

/-- Runtime values on the VM stack (enum VMValue in target_code_generator.rs). -/
inductive VMValue
  | Int (n : Int)
  | Bool (b : Bool)
  | Str (s : String)
deriving DecidableEq, Repr

/-- The fatal runtime faults (the panic sites of VM::run in target_code_generator.rs). -/
inductive VMFault
  | stackUnderflow
  | noCallFrame
  | undefinedVariable (name : String)
  | typeError (op : String)
  | divisionByZero
deriving DecidableEq, Repr

/-- A call frame: local name bindings (struct Frame in target_code_generator.rs). -/
structure Frame where
  locals : List (String × VMValue)
deriving DecidableEq, Repr

/-- VM state: evaluation stack and frame stack (struct VM). -/
structure VMState where
  stack : List VMValue
  frames : List Frame
deriving DecidableEq, Repr

/-- A program: a linear list of VM instructions (struct VMProgram). -/
structure VMProgram where
  instrs : List VMInstr
deriving DecidableEq, Repr

/-- Fresh VM state with an empty stack and one empty global frame (VM::new). -/
def VMState.init : VMState := ⟨[], [⟨[]⟩]⟩

/-- Result of executing one instruction: continue in a new state, return a
value, or abort with a fault (the panics of the Rust interpreter). -/
inductive StepResult
  | cont (st : VMState)
  | ret (v : VMValue) (st : VMState)
  | fault (f : VMFault)
deriving DecidableEq, Repr

/-- Single-instruction semantics of VM::run's match arms; pops take the
top-of-stack as the right operand, exactly as the Rust pop order does. -/
def step (st : VMState) : VMInstr → StepResult
  | .PushInt n => .cont ⟨.Int n :: st.stack, st.frames⟩
  | .PushBool b => .cont ⟨.Bool b :: st.stack, st.frames⟩
  | .PushStr s => .cont ⟨.Str s :: st.stack, st.frames⟩
  | .Load name =>
      match st.frames with
      | [] => .fault .noCallFrame
      | f :: _ =>
          match List.lookup name f.locals with
          | some v => .cont ⟨v :: st.stack, st.frames⟩
          | none => .fault (.undefinedVariable name)
  | .Store name =>
      match st.stack with
      | [] => .fault .stackUnderflow
      | v :: s =>
          match st.frames with
          | [] => .fault .noCallFrame
          | f :: rest => .cont ⟨s, ⟨mapInsert f.locals name v⟩ :: rest⟩
  | .Add =>
      match st.stack with
      | r :: l :: s =>
          match l, r with
          | .Int a, .Int b => .cont ⟨.Int (a + b) :: s, st.frames⟩
          | .Str a, .Str b => .cont ⟨.Str (a ++ b) :: s, st.frames⟩
          | .Str a, .Int b => .cont ⟨.Str (a ++ toString b) :: s, st.frames⟩
          | .Int a, .Str b => .cont ⟨.Str (toString a ++ b) :: s, st.frames⟩
          | _, _ => .fault (.typeError "Add")
      | _ => .fault .stackUnderflow
  | .Sub =>
      match st.stack with
      | r :: l :: s =>
          match l, r with
          | .Int a, .Int b => .cont ⟨.Int (a - b) :: s, st.frames⟩
          | _, _ => .fault (.typeError "Sub")
      | _ => .fault .stackUnderflow
  | .Mul =>
      match st.stack with
      | r :: l :: s =>
          match l, r with
          | .Int a, .Int b => .cont ⟨.Int (a * b) :: s, st.frames⟩
          | _, _ => .fault (.typeError "Mul")
      | _ => .fault .stackUnderflow
  | .Div =>
      match st.stack with
      | r :: l :: s =>
          match l, r with
          | .Int a, .Int b =>
              if b = 0 then .fault .divisionByZero
              else .cont ⟨.Int (Int.tdiv a b) :: s, st.frames⟩
          | _, _ => .fault (.typeError "Div")
      | _ => .fault .stackUnderflow
  | .Concat =>
      match st.stack with
      | r :: l :: s =>
          match l, r with
          | .Str a, .Str b => .cont ⟨.Str (a ++ b) :: s, st.frames⟩
          | _, _ => .fault (.typeError "Concat")
      | _ => .fault .stackUnderflow
  | .Ret =>
      match st.stack with
      | [] => .fault .stackUnderflow
      | v :: s => .ret v ⟨s, st.frames⟩

/-- Outcome of executing an instruction list: a fault, an early return, or
falling off the end in a final state. -/
inductive ExecResult
  | fault (f : VMFault)
  | ret (v : VMValue) (st : VMState)
  | out (st : VMState)
deriving DecidableEq, Repr

/-- Sequential execution of an instruction list (the for-loop of VM::run). -/
def exec (st : VMState) : List VMInstr → ExecResult
  | [] => .out st
  | i :: rest =>
      match step st i with
      | .fault f => .fault f
      | .ret v st' => .ret v st'
      | .cont st' => exec st' rest

/-- Terminal observation of one run: a fatal fault, or a halt carrying the
returned value when a Ret executed (none when the stream was exhausted). -/
inductive RunResult
  | fault (f : VMFault)
  | halt (r : Option VMValue)
deriving DecidableEq, Repr

/-- VM::run on a fresh VM: execute the program from the initial state. -/
def VMrun (p : VMProgram) : RunResult :=
  match exec VMState.init p.instrs with
  | .fault f => .fault f
  | .ret v _ => .halt (some v)
  | .out _ => .halt none

/-- Deterministic lowering from IR to the stack machine (lower_ir_to_vm in
target_code_generator.rs).  An operator outside the four arithmetic symbols
falls back to the Add opcode, as the Rust match does. -/
def lower_ir_to_vm (ir : List IRInstr) : VMProgram :=
  ⟨ir.foldl
    (fun instrs instr =>
      match instr with
      | .Assign target value =>
          match value with
          | .Int n => instrs ++ [.PushInt n, .Store target]
          | .Bool b => instrs ++ [.PushBool b, .Store target]
          | .Str s => instrs ++ [.PushStr s, .Store target]
          | .Var v | .Temp v => instrs ++ [.Load v, .Store target]
      | .BinaryOp result left op right =>
          instrs ++ [.Load left, .Load right,
            (if op = "+" then .Add
             else if op = "-" then .Sub
             else if op = "*" then .Mul
             else if op = "/" then .Div
             else .Add),
            .Store result]
      | .Return name => instrs ++ [.Load name, .Ret])
    []⟩

/-- Convenience pipeline (run_ir_with_vm): lower the IR and run it on a fresh VM. -/
def run_ir_with_vm (ir : List IRInstr) : RunResult :=
  VMrun (lower_ir_to_vm ir)

/-- AST expressions (enum Expression in syntax_analyzer.rs). -/
inductive Expression
  | Integer (n : Int)
  | Boolean (b : Bool)
  | String (s : String)
  | Ident (name : String)
  | BinaryOp (left : Expression) (op : String) (right : Expression)
deriving DecidableEq, Repr

/-- AST statements (enum Statement in syntax_analyzer.rs). -/
inductive Statement
  | VarDecl (name : String) (value : Expression)
  | Expr (e : Expression)
  | Return (e : Expression)
deriving DecidableEq, Repr

/-- AST function (struct Function in syntax_analyzer.rs). -/
structure Function where
  name : String
  params : List String
  body : List Statement
deriving DecidableEq, Repr

/-- IR generator state: the temp counter and the accumulated instruction
buffer (struct IRGenerator in intermediate_code_generator.rs). -/
structure IRGenerator where
  temp_counter : Nat
  code : List IRInstr
deriving DecidableEq, Repr

/-- Fresh generator (IRGenerator::new). -/
def IRGenerator.new : IRGenerator := ⟨0, []⟩

/-- Mint a fresh temporary name t1, t2, ... (IRGenerator::new_temp). -/
def new_temp (g : IRGenerator) : String × IRGenerator :=
  ("t" ++ toString (g.temp_counter + 1), { g with temp_counter := g.temp_counter + 1 })

/-- Materialize a BinaryOp operand: a name reference is used directly, while a
literal is spilled into a fresh temporary through an Assign (the two identical
match blocks inside IRGenerator::generate_expression's BinaryOp arm). -/
def spillStep (g : IRGenerator) : IRValue → String × IRGenerator
  | .Var v | .Temp v => (v, g)
  | lit =>
      let u := new_temp g
      (u.1, { u.2 with code := u.2.code ++ [.Assign u.1 lit] })

/-- Lower an expression to an IR value, emitting spill and BinaryOp
instructions into the buffer (IRGenerator::generate_expression). -/
def generate_expression (g : IRGenerator) : Expression → IRValue × IRGenerator
  | .Integer n => (.Int n, g)
  | .Boolean b => (.Bool b, g)
  | .String s => (.Str s, g)
  | .Ident name => (.Var name, g)
  | .BinaryOp left op right =>
      let p₁ := generate_expression g left
      let p₂ := generate_expression p₁.2 right
      let t := new_temp p₂.2
      let lSpill := spillStep t.2 p₁.1
      let rSpill := spillStep lSpill.2 p₂.1
      (.Temp t.1,
        { rSpill.2 with
            code := rSpill.2.code ++ [.BinaryOp t.1 lSpill.1 op rSpill.1] })

/-- Lower one statement (IRGenerator::generate_statement). -/
def generate_statement (g : IRGenerator) : Statement → IRGenerator
  | .VarDecl name value =>
      let p := generate_expression g value
      { p.2 with code := p.2.code ++ [.Assign name p.1] }
  | .Return e =>
      let p := generate_expression g e
      match p.1 with
      | .Temp t | .Var t => { p.2 with code := p.2.code ++ [.Return t] }
      | lit =>
          let u := new_temp p.2
          { u.2 with code := u.2.code ++ [.Assign u.1 lit, .Return u.1] }
  | .Expr e => (generate_expression g e).2

/-- Lower a whole function body, returning the full accumulated buffer and the
final generator state (IRGenerator::generate_function; note the buffer is not
reset, the returned list is everything accumulated so far). -/
def generate_function (g : IRGenerator) (f : Function) : List IRInstr × IRGenerator :=
  let g' := f.body.foldl generate_statement g
  (g'.code, g')

/-- Whether an IR value is a literal (integer, boolean or string). -/
def isLiteralValue : IRValue → Bool
  | .Int _ | .Bool _ | .Str _ => true
  | .Var _ | .Temp _ => false

/-- Identifier names occurring in an expression. -/
def exprIdents : Expression → List String
  | .Integer _ => []
  | .Boolean _ => []
  | .String _ => []
  | .Ident name => [name]
  | .BinaryOp l _ r => exprIdents l ++ exprIdents r

/-- Identifier names occurring in a statement. -/
def stmtIdents : Statement → List String
  | .VarDecl _ value => exprIdents value
  | .Expr e => exprIdents e
  | .Return e => exprIdents e

/-- Identifier names occurring in a function body. -/
def funcIdents (f : Function) : List String :=
  (f.body.map stmtIdents).flatten

/-- The name an IR instruction writes, if any. -/
def writesName : IRInstr → Option String
  | .Assign t _ => some t
  | .BinaryOp r _ _ _ => some r
  | .Return _ => none

/-- A name is written by some instruction strictly before position k. -/
def WrittenAt (code : List IRInstr) (k : Nat) (n : String) : Prop :=
  ∃ j, j < k ∧ ∃ i, code[j]? = some i ∧ writesName i = some n

/-- Every BinaryOp in the list has both operands either drawn from the
identifier set S or written by an earlier instruction. -/
def GoodCode (S : List String) (code : List IRInstr) : Prop :=
  ∀ k res l op r, code[k]? = some (.BinaryOp res l op r) →
    (l ∈ S ∨ WrittenAt code k l) ∧ (r ∈ S ∨ WrittenAt code k r)

/-- Keys of the copy map not yet visited: the termination measure of the
resolve loop. -/
def keysNotSeen (m : List (String × String)) (seen : List String) : List String :=
  (m.map Prod.fst).filter (fun k => decide (¬ k ∈ seen))

/-- Modelled from the spec claim's words only (for comparison with the code's
is_temporary_name): a reserved temporary is a letter followed only by digits. -/
def claimedTemporaryName (name : String) : Bool :=
  match name.data with
  | [] => false
  | c :: rest => c.isAlpha && rest.all (fun ch => ch.isDigit)

/-- Modelled from the spec claim's words only (for comparison with
copyRewrite): the keep-original exception applied at every use site, including
BinaryOp operands whose resolution equals the instruction's own result name. -/
def copyRewriteClaimed (m : List (String × String)) : IRInstr → IRInstr
  | .Assign target value =>
      let newVal :=
        match value with
        | .Temp t | .Var t =>
            let resolved := resolve_copy m t
            if resolved = target then value else .Var resolved
        | _ => value
      .Assign target newVal
  | .BinaryOp res l op r =>
      let l' := resolve_copy m l
      let r' := resolve_copy m r
      .BinaryOp res (if l' = res then l else l') op (if r' = res then r else r')
  | .Return name => .Return (resolve_copy m name)

/-- A fault-free IR program (no division, all names bound before use) on which
the optimizer changes the observable result: the unrecognized operator leaves
the BinaryOp on r unfolded without clearing r's stale constant binding, so the
following add folds with the stale value. -/
def irMixedOps : List IRInstr :=
  [.Assign "a" (.Int 1), .Assign "b" (.Int 2), .Assign "r" (.Int 5),
   .BinaryOp "r" "a" "%" "b", .BinaryOp "s" "r" "+" "a",
   .BinaryOp "w" "a" "%" "b", .BinaryOp "u" "s" "+" "w", .Return "u"]

/-- What optimize_ir produces on irMixedOps (a genuine length fixpoint). -/
def irMixedOpsOpt : List IRInstr :=
  [.Assign "a" (.Int 1), .Assign "b" (.Int 2), .Assign "r" (.Int 5),
   .BinaryOp "r" "a" "%" "b", .Assign "s" (.Int 6),
   .BinaryOp "w" "a" "%" "b", .BinaryOp "u" "s" "+" "w", .Return "u"]

/-- Input exhibiting the stale constant binding of the fold pass: the BinaryOp
on r is left unfolded by the unrecognized-operator branch, yet r's binding to
5 survives and is propagated into the Return rewrite. -/
def irStaleConst : List IRInstr :=
  [.Assign "r" (.Int 5), .Assign "a" (.Int 1), .Assign "b" (.Int 2),
   .BinaryOp "r" "a" "%" "b", .Return "r"]

/-- The AST of the source program return 10 / 0; (scenario C). -/
def astDivZero : Function :=
  ⟨"main", [], [.Return (.BinaryOp (.Integer 10) "/" (.Integer 0))]⟩

/-- The IR the generator produces for return 10 / 0;. -/
def irDivZero : List IRInstr :=
  [.Assign "t2" (.Int 10), .Assign "t3" (.Int 0),
   .BinaryOp "t1" "t2" "/" "t3", .Return "t1"]

/-- An unused assignment whose target matches the letter-plus-digits pattern
of the claim but not the code's t-only pattern. -/
def irLetterTemp : List IRInstr :=
  [.Assign "a1" (.Int 5), .Return "x"]

/-- Input where a BinaryOp operand resolves to the instruction's own result
name: a is a copy of b, and the BinaryOp writes b while reading a. -/
def irSelfTarget : List IRInstr :=
  [.Assign "a" (.Var "b"), .BinaryOp "b" "a" "+" "c"]

/-- A two-element copy map forming a cycle, used to witness cycle-safe
resolution. -/
def cycleMap : List (String × String) := [("a", "b"), ("b", "a")]

/-- A function whose single return adds two integer literals; used to witness
the operand-materialization invariant. -/
def astAddLiterals : Function :=
  ⟨"main", [], [.Return (.BinaryOp (.Integer 2) "+" (.Integer 3))]⟩

/-! Theorems. -/

theorem foldl_append_singleton {α β : Type} (f : α → β) (l : List α) :
    ∀ acc : List β, l.foldl (fun a i => a ++ [f i]) acc = acc ++ l.map f := by
  induction l with
  | nil => intro acc; simp
  | cons x xs ih => intro acc; simp [List.foldl_cons, ih]

/-- C1.  The optimizer is not sound: irMixedOps executes without any fault and
returns the integer 7, optimize_ir reaches a genuine fixpoint on it (the same
output for any larger fuel), and the optimized program returns the integer 9.
The stale constant binding kept by the unrecognized-operator branch of the
fold pass folds the add on s with 5 instead of the runtime value 3. -/
theorem optimize_ir_changes_terminal_value :
    run_ir_with_vm irMixedOps = .halt (some (.Int 7)) ∧
    optimize_ir 1 irMixedOps = some irMixedOpsOpt ∧
    optimize_ir 5 irMixedOps = some irMixedOpsOpt ∧
    run_ir_with_vm irMixedOpsOpt = .halt (some (.Int 9)) := by
  refine ⟨by decide, by decide, by decide, by decide⟩

/-- C5.  After the fold pass processes the unfoldable BinaryOp writing r (both
operands known integers, unrecognized operator), r's constant binding is NOT
removed: the map still sends r to 5, and the stale constant is propagated into
the rewrite of the following Return. -/
theorem fold_keeps_stale_constant_binding :
    List.lookup "r" ((irStaleConst.take 4).foldl foldStep ([], [])).1 =
      some (.Int 5) ∧
    constant_fold_and_propagate irStaleConst =
      [.Assign "r" (.Int 5), .Assign "a" (.Int 1), .Assign "b" (.Int 2),
       .BinaryOp "r" "a" "%" "b",
       .Assign "t_fold_return_r" (.Int 5), .Return "t_fold_return_r"] := by
  refine ⟨by decide, by decide⟩

/-- C3 counterexample.  The name a1 matches the claimed pattern (a letter
followed only by digits) and has zero uses, yet its assignment survives
dead-code elimination, because the code's pattern demands the letter t. -/
theorem dce_keeps_unused_letter_digit_assign :
    claimedTemporaryName "a1" = true ∧
    useCount irLetterTemp "a1" = 0 ∧
    is_temporary_name "a1" = false ∧
    dead_code_elimination irLetterTemp = irLetterTemp := by
  refine ⟨by decide, by decide, by decide, by decide⟩

/-- C4 counterexample.  On irSelfTarget the copy-propagation pass rewrites the
BinaryOp operand a to its resolved name b even though b is the instruction's
own result name, so the output differs from the claim's prediction (which
keeps the original operand at every use site in that situation). -/
theorem copyprop_rewrites_operand_to_own_target :
    resolve_copy (buildCopyMap irSelfTarget) "a" = "b" ∧
    copy_propagation irSelfTarget =
      [.Assign "a" (.Var "b"), .BinaryOp "b" "b" "+" "c"] ∧
    irSelfTarget.map (copyRewriteClaimed (buildCopyMap irSelfTarget)) =
      [.Assign "a" (.Var "b"), .BinaryOp "b" "a" "+" "c"] ∧
    copy_propagation irSelfTarget ≠
      irSelfTarget.map (copyRewriteClaimed (buildCopyMap irSelfTarget)) := by
  refine ⟨by decide, by decide, by decide, by decide⟩

/-- C4 amended.  Copy propagation rewrites every instruction independently
through copyRewrite under the copy map of the whole list: BinaryOp operands
and the Return operand are always replaced by their resolved names, and only
an Assign right-hand side keeps the original when resolution would equal the
instruction's own target. -/
theorem copy_propagation_eq_map_rewrite (code : List IRInstr) :
    copy_propagation code = code.map (copyRewrite (buildCopyMap code)) := by
  unfold copy_propagation
  simpa using foldl_append_singleton (copyRewrite (buildCopyMap code)) code []

theorem dceRound_foldl_eq (code : List IRInstr) :
    ∀ (l : List IRInstr) (acc : List IRInstr) (b : Bool),
      l.foldl (dceStep code) (acc, b) =
        (acc ++ l.filter (dceKeep code), b || l.any (fun i => !dceKeep code i)) := by
  intro l
  induction l with
  | nil => intro acc b; simp
  | cons i xs ih =>
      intro acc b
      cases i with
      | Assign target v =>
          by_cases h : (useCount code target == 0 && is_temporary_name target) = true
          · simp [List.foldl_cons, dceStep, h, ih, List.filter_cons, dceKeep]
          · simp [List.foldl_cons, dceStep, h, ih, List.filter_cons, dceKeep]
      | BinaryOp res l2 op r =>
          simp [List.foldl_cons, dceStep, ih, List.filter_cons, dceKeep]
      | Return n =>
          simp [List.foldl_cons, dceStep, ih, List.filter_cons, dceKeep]

/-- C3 amended.  Within one dead-code-elimination round, an instruction is
dropped exactly when it is an Assign whose target has zero uses in the round's
input (counting Assign right-hand sides, BinaryOp operands and Return
operands) and whose name matches the code's temporary pattern: the specific
letter t followed only by digits.  Assigns to any other name, including other
letter-plus-digits names, always survive the round. -/
theorem dce_round_drop_condition (code : List IRInstr) :
    (dceRound code).1 =
      code.filter (fun instr =>
        match instr with
        | .Assign target _ => !(useCount code target == 0 && is_temporary_name target)
        | _ => true) ∧
    (dceRound code).2 = code.any (fun i => !dceKeep code i) := by
  have h := dceRound_foldl_eq code code [] false
  unfold dceRound
  rw [h]
  constructor
  · simp only [List.nil_append]
    rfl
  · simp

theorem dceRound_shrinks (code : List IRInstr) (h : (dceRound code).2 = true) :
    (dceRound code).1.length < code.length := by
  have hr := dceRound_foldl_eq code code [] false
  unfold dceRound at *
  rw [hr] at h ⊢
  simp only [List.nil_append]
  simp only [Bool.false_or] at h
  rw [List.any_eq_true] at h
  obtain ⟨x, hx, hnx⟩ := h
  rw [List.length_filter_lt_length_iff_exists]
  exact ⟨x, hx, by simpa using hnx⟩

theorem dceLoop_fuel_stable :
    ∀ (f₁ f₂ : Nat) (code : List IRInstr), code.length < f₁ → code.length < f₂ →
      dceLoop f₁ code = dceLoop f₂ code := by
  intro f₁
  induction f₁ with
  | zero => intro f₂ code h₁; exact absurd h₁ (Nat.not_lt_zero _)
  | succ n ih =>
      intro f₂ code h₁ h₂
      cases f₂ with
      | zero => exact absurd h₂ (Nat.not_lt_zero _)
      | succ k =>
          show (if (dceRound code).2 then dceLoop n (dceRound code).1 else (dceRound code).1) =
            (if (dceRound code).2 then dceLoop k (dceRound code).1 else (dceRound code).1)
          by_cases hrem : (dceRound code).2 = true
          · have hlt := dceRound_shrinks code hrem
            rw [hrem]
            simp only [if_true]
            exact ih k _ (Nat.lt_of_lt_of_le hlt (Nat.lt_succ_iff.mp h₁))
              (Nat.lt_of_lt_of_le hlt (Nat.lt_succ_iff.mp h₂))
          · simp [hrem]

theorem dead_code_elimination_fuel (code : List IRInstr) (f : Nat)
    (h : code.length < f) : dceLoop f code = dead_code_elimination code :=
  dceLoop_fuel_stable f (code.length + 1) code h (Nat.lt_succ_self _)

theorem lookup_mem_keys {α : Type} (k : String) (v : α) :
    ∀ m : List (String × α), List.lookup k m = some v → k ∈ m.map Prod.fst := by
  intro m
  induction m with
  | nil => intro h; simp [List.lookup] at h
  | cons p rest ih =>
      obtain ⟨a, b⟩ := p
      intro h
      cases hkb : (k == a) with
      | true =>
          have : k = a := by simpa using hkb
          subst this
          simp
      | false =>
          simp only [List.lookup, hkb] at h
          simp only [List.map_cons, List.mem_cons]
          exact Or.inr (ih h)

theorem length_filter_ne_lt (x : String) :
    ∀ l : List String, x ∈ l →
      (l.filter (fun k => decide (¬ k = x))).length < l.length := by
  intro l
  induction l with
  | nil => intro h; simp at h
  | cons a rest ih =>
      intro h
      by_cases he : a = x
      · subst he
        rw [List.filter_cons]
        simp only [show (decide ¬a = a) = false by simp, Bool.false_eq_true,
          if_false, List.length_cons]
        exact Nat.lt_succ_of_le (List.length_filter_le _ _)
      · have hx : x ∈ rest := by
          rcases List.mem_cons.mp h with h1 | h2
          · exact absurd h1.symm he
          · exact h2
        rw [List.filter_cons]
        simp only [show (decide ¬a = x) = true by simpa using he, if_true,
          List.length_cons]
        exact Nat.succ_lt_succ (ih hx)

theorem keysNotSeen_cons_lt (m : List (String × String)) (seen : List String)
    (name : String) (hmem : name ∈ m.map Prod.fst) (hns : name ∉ seen) :
    (keysNotSeen m (name :: seen)).length < (keysNotSeen m seen).length := by
  unfold keysNotSeen
  have hsplit : (m.map Prod.fst).filter (fun k => decide (¬ k ∈ name :: seen)) =
      ((m.map Prod.fst).filter (fun k => decide (¬ k ∈ seen))).filter
        (fun k => decide (¬ k = name)) := by
    rw [List.filter_filter]
    apply List.filter_congr
    intro x _
    by_cases h1 : x = name
    · subst h1; simp
    · by_cases h2 : x ∈ seen <;> simp [List.mem_cons, h1, h2]
  rw [hsplit]
  apply length_filter_ne_lt
  rw [List.mem_filter]
  exact ⟨hmem, by simpa using hns⟩

/-- C9.  The transitive copy-resolution loop terminates on every starting name
and every finite copy map: its result is independent of the fuel once the fuel
exceeds the number of unvisited map keys, because every continuing iteration
visits a previously unvisited key and a revisited name stops the loop. -/
theorem resolve_copy_fuel_independent :
    ∀ (m : List (String × String)) (f₁ f₂ : Nat) (seen : List String) (name : String),
      (keysNotSeen m seen).length < f₁ → (keysNotSeen m seen).length < f₂ →
      resolveCopyAux m f₁ seen name = resolveCopyAux m f₂ seen name := by
  intro m f₁
  induction f₁ with
  | zero => intro f₂ seen name h₁ h₂; exact absurd h₁ (Nat.not_lt_zero _)
  | succ n ih =>
      intro f₂ seen name h₁ h₂
      cases f₂ with
      | zero => exact absurd h₂ (Nat.not_lt_zero _)
      | succ k =>
          cases hlk : List.lookup name m with
          | none => simp [resolveCopyAux, hlk]
          | some next =>
              by_cases hseen : name ∈ seen
              · simp [resolveCopyAux, hlk, hseen]
              · simp only [resolveCopyAux, hlk, hseen, if_false]
                have hdec := keysNotSeen_cons_lt m seen name
                  (lookup_mem_keys name next m hlk) hseen
                exact ih k (name :: seen) next
                  (Nat.lt_of_lt_of_le hdec (Nat.lt_succ_iff.mp h₁))
                  (Nat.lt_of_lt_of_le hdec (Nat.lt_succ_iff.mp h₂))

/-- Witness for C9 at a two-element cyclic copy map. -/
theorem resolve_copy_fuel_independent_witness :
    (keysNotSeen cycleMap []).length < 3 ∧ (keysNotSeen cycleMap []).length < 50 ∧
    resolveCopyAux cycleMap 3 [] "a" = resolveCopyAux cycleMap 50 [] "a" :=
  ⟨by decide, by decide,
    resolve_copy_fuel_independent cycleMap 3 50 [] "a" (by decide) (by decide)⟩

/-- C2.  The fold pass never folds an integer division whose resolved divisor
is the constant 0: the BinaryOp is re-emitted unchanged.  Moreover, for the
program return 10 / 0; the generated IR survives optimization unchanged (a
genuine fixpoint), lowers to a runtime Div opcode, and executing it faults
with divide-by-zero, so the run yields no value. -/
theorem div_by_zero_never_folded :
    ∀ (consts : List (String × IRValue)) (acc : List IRInstr)
      (res l r : String) (a : Int),
      List.lookup l consts = some (.Int a) →
      List.lookup r consts = some (.Int 0) →
      foldStep (consts, acc) (.BinaryOp res l "/" r) =
        (consts, acc ++ [.BinaryOp res l "/" r]) ∧
      (generate_function IRGenerator.new astDivZero).1 = irDivZero ∧
      optimize_ir 1 irDivZero = some irDivZero ∧
      (lower_ir_to_vm irDivZero).instrs =
        [.PushInt 10, .Store "t2", .PushInt 0, .Store "t3", .Load "t2",
         .Load "t3", .Div, .Store "t1", .Load "t1", .Ret] ∧
      run_ir_with_vm irDivZero = .fault .divisionByZero := by
  intro consts acc res l r a h₁ h₂
  refine ⟨?_, by decide, by decide, by decide, by decide⟩
  simp [foldStep, h₁, h₂]

/-- Witness for C2 at a concrete constant map binding the divisor to 0. -/
theorem div_by_zero_never_folded_witness :
    foldStep ([("x", IRValue.Int 10), ("y", IRValue.Int 0)], [])
        (.BinaryOp "z" "x" "/" "y") =
      ([("x", IRValue.Int 10), ("y", IRValue.Int 0)],
        [.BinaryOp "z" "x" "/" "y"]) ∧
    (generate_function IRGenerator.new astDivZero).1 = irDivZero ∧
    optimize_ir 1 irDivZero = some irDivZero ∧
    (lower_ir_to_vm irDivZero).instrs =
      [.PushInt 10, .Store "t2", .PushInt 0, .Store "t3", .Load "t2",
       .Load "t3", .Div, .Store "t1", .Load "t1", .Ret] ∧
    run_ir_with_vm irDivZero = .fault .divisionByZero :=
  div_by_zero_never_folded [("x", IRValue.Int 10), ("y", IRValue.Int 0)] []
    "z" "x" "y" 10 (by decide) (by decide)

/-- C6.  A Return statement always lowers to a Return carrying a name: when
the expression yields a name reference the generator emits Return of that
name directly, and when it yields a literal the generator first spills it into
a fresh temporary.  Likewise the fold pass rewrites a Return of a name bound
to a constant into Assign of a synthetic temporary followed by Return of that
temporary, and leaves other Returns unchanged. -/
theorem return_always_carries_name :
    ∀ (g g₁ : IRGenerator) (e : Expression) (v : IRValue) (n : String)
      (consts : List (String × IRValue)) (acc : List IRInstr) (name : String)
      (c : IRValue),
      generate_expression g e = (v, g₁) →
      ((v = .Var n ∨ v = .Temp n) →
        generate_statement g (.Return e) =
          { g₁ with code := g₁.code ++ [.Return n] }) ∧
      (isLiteralValue v = true →
        generate_statement g (.Return e) =
          { temp_counter := g₁.temp_counter + 1,
            code := g₁.code ++
              [.Assign ("t" ++ toString (g₁.temp_counter + 1)) v,
               .Return ("t" ++ toString (g₁.temp_counter + 1))] }) ∧
      (List.lookup name consts = some c →
        foldStep (consts, acc) (.Return name) =
          (consts, acc ++ [.Assign ("t_fold_return_" ++ name) c,
                           .Return ("t_fold_return_" ++ name)])) ∧
      (List.lookup name consts = none →
        foldStep (consts, acc) (.Return name) = (consts, acc ++ [.Return name])) := by
  intro g g₁ e v n consts acc name c h
  refine ⟨?_, ?_, ?_, ?_⟩
  · intro hv
    rcases hv with hv | hv <;>
      · subst hv
        simp [generate_statement, h]
  · intro hlit
    cases v with
    | Int m => simp [generate_statement, h, new_temp]
    | Bool b => simp [generate_statement, h, new_temp]
    | Str s => simp [generate_statement, h, new_temp]
    | Var w => simp [isLiteralValue] at hlit
    | Temp w => simp [isLiteralValue] at hlit
  · intro hlk
    simp [foldStep, hlk]
  · intro hlk
    simp [foldStep, hlk]

/-- Witness for C6: a literal return spills through t1, and a constant-bound
Return is rewritten through the synthetic fold temporary. -/
theorem return_always_carries_name_witness :
    generate_statement IRGenerator.new (.Return (.Integer 3)) =
      { temp_counter := 1, code := [.Assign "t1" (.Int 3), .Return "t1"] } ∧
    foldStep ([("x", IRValue.Int 5)], []) (.Return "x") =
      ([("x", IRValue.Int 5)],
        [.Assign "t_fold_return_x" (.Int 5), .Return "t_fold_return_x"]) := by
  have h := return_always_carries_name IRGenerator.new IRGenerator.new
    (.Integer 3) (.Int 3) "q" [("x", IRValue.Int 5)] [] "x" (.Int 5) rfl
  exact ⟨h.2.1 rfl, h.2.2.1 rfl⟩

theorem exec_append (a b : List VMInstr) : ∀ st : VMState,
    exec st (a ++ b) =
      match exec st a with
      | .out st' => exec st' b
      | .ret v st' => .ret v st'
      | .fault f => .fault f := by
  induction a with
  | nil => intro st; simp [exec]
  | cons i rest ih =>
      intro st
      show exec st (i :: (rest ++ b)) = _
      simp only [exec]
      cases hstep : step st i with
      | fault f => simp
      | ret v st' => simp
      | cont st' => simpa using ih st'

theorem step_ret_only (st : VMState) (i : VMInstr) (v : VMValue) (st' : VMState)
    (h : step st i = .ret v st') : i = .Ret := by
  cases i <;> try rfl
  all_goals simp only [step] at h
  all_goals repeat' split at h
  all_goals simp_all

theorem exec_no_ret : ∀ (l : List VMInstr) (st : VMState), VMInstr.Ret ∉ l →
    ∀ (v : VMValue) (st' : VMState), exec st l ≠ .ret v st' := by
  intro l
  induction l with
  | nil => intro st h v st'; simp [exec]
  | cons i rest ih =>
      intro st h v st'
      have hi : i ≠ VMInstr.Ret := by
        intro he
        subst he
        exact h (List.mem_cons_self _ _)
      simp only [exec]
      cases hstep : step st i with
      | fault f => simp
      | ret w st₂ => exact absurd (step_ret_only st i w st₂ hstep) hi
      | cont st₂ => simpa using ih st₂ (fun hm => h (List.mem_cons_of_mem i hm)) v st'

/-- C8.  The VM executes instructions in order; on the first Ret it halts at
once with the popped top-of-stack value (ignoring everything after the Ret),
and a run whose instruction stream contains no Ret never yields a value. -/
theorem vm_first_ret_halts :
    ∀ (pre post : List VMInstr) (st st' : VMState) (v : VMValue) (s : List VMValue),
      (VMInstr.Ret ∉ pre → exec st pre = .out st' → st'.stack = v :: s →
        exec st (pre ++ VMInstr.Ret :: post) = .ret v ⟨s, st'.frames⟩) ∧
      (∀ p : VMProgram, VMInstr.Ret ∉ p.instrs →
        ∀ w : VMValue, VMrun p ≠ .halt (some w)) := by
  intro pre post st st' v s
  constructor
  · intro hnr hout hstack
    rw [exec_append, hout]
    show exec st' (VMInstr.Ret :: post) = _
    simp only [exec, step, hstack]
  · intro p hnr w
    unfold VMrun
    cases hex : exec VMState.init p.instrs with
    | fault f => simp
    | ret u st₂ => exact absurd hex (exec_no_ret p.instrs VMState.init hnr u st₂)
    | out st₂ => simp

/-- Witness for C8: pushing 3 then Ret returns 3, and a Ret-free program
yields no value. -/
theorem vm_first_ret_halts_witness :
    exec VMState.init ([VMInstr.PushInt 3] ++ VMInstr.Ret :: []) =
      .ret (.Int 3) ⟨[], [⟨[]⟩]⟩ ∧
    VMrun ⟨[VMInstr.PushInt 3]⟩ ≠ .halt (some (.Int 3)) := by
  have h := vm_first_ret_halts [VMInstr.PushInt 3] [] VMState.init
    ⟨[VMValue.Int 3], [⟨[]⟩]⟩ (VMValue.Int 3) []
  exact ⟨h.1 (by decide) rfl rfl, h.2 ⟨[VMInstr.PushInt 3]⟩ (by decide) (VMValue.Int 3)⟩

theorem spillStep_spec (g : IRGenerator) (v : IRValue) :
    (∃ Δ, (spillStep g v).2.code = g.code ++ Δ) ∧
    g.temp_counter ≤ (spillStep g v).2.temp_counter := by
  cases v with
  | Var n => exact ⟨⟨[], by simp [spillStep]⟩, Nat.le_refl _⟩
  | Temp n => exact ⟨⟨[], by simp [spillStep]⟩, Nat.le_refl _⟩
  | Int n => exact ⟨⟨_, rfl⟩, Nat.le_succ _⟩
  | Bool b => exact ⟨⟨_, rfl⟩, Nat.le_succ _⟩
  | Str s => exact ⟨⟨_, rfl⟩, Nat.le_succ _⟩

theorem extends_trans {c₁ c₂ c₃ : List IRInstr} :
    (∃ Δ, c₂ = c₁ ++ Δ) → (∃ Δ, c₃ = c₂ ++ Δ) → (∃ Δ, c₃ = c₁ ++ Δ) := by
  rintro ⟨a, ha⟩ ⟨b, hb⟩
  exact ⟨a ++ b, by rw [hb, ha, List.append_assoc]⟩

theorem extends_append {c₁ c₂ : List IRInstr} (Δ₀ : List IRInstr) :
    (∃ Δ, c₂ = c₁ ++ Δ) → (∃ Δ, c₂ ++ Δ₀ = c₁ ++ Δ) := by
  rintro ⟨a, ha⟩
  exact ⟨a ++ Δ₀, by rw [ha, List.append_assoc]⟩

theorem generate_expression_extends : ∀ (e : Expression) (g : IRGenerator),
    (∃ Δ, (generate_expression g e).2.code = g.code ++ Δ) ∧
    g.temp_counter ≤ (generate_expression g e).2.temp_counter := by
  intro e
  induction e with
  | Integer n => intro g; exact ⟨⟨[], by simp [generate_expression]⟩, Nat.le_refl _⟩
  | Boolean b => intro g; exact ⟨⟨[], by simp [generate_expression]⟩, Nat.le_refl _⟩
  | String s => intro g; exact ⟨⟨[], by simp [generate_expression]⟩, Nat.le_refl _⟩
  | Ident name => intro g; exact ⟨⟨[], by simp [generate_expression]⟩, Nat.le_refl _⟩
  | BinaryOp left op right ihl ihr =>
      intro g
      obtain ⟨he₁, hc₁⟩ := ihl g
      obtain ⟨he₂, hc₂⟩ := ihr (generate_expression g left).2
      obtain ⟨hel, hcl⟩ := spillStep_spec
        (new_temp (generate_expression (generate_expression g left).2 right).2).2
        (generate_expression g left).1
      obtain ⟨her, hcr⟩ := spillStep_spec
        (spillStep
          (new_temp (generate_expression (generate_expression g left).2 right).2).2
          (generate_expression g left).1).2
        (generate_expression (generate_expression g left).2 right).1
      constructor
      · simp only [generate_expression]
        exact extends_append _
          (extends_trans he₁ (extends_trans he₂ (extends_trans hel her)))
      · simp only [generate_expression]
        exact Nat.le_trans hc₁ (Nat.le_trans hc₂
          (Nat.le_trans (Nat.le_succ _) (Nat.le_trans hcl hcr)))

theorem generate_statement_extends (s : Statement) (g : IRGenerator) :
    (∃ Δ, (generate_statement g s).code = g.code ++ Δ) ∧
    g.temp_counter ≤ (generate_statement g s).temp_counter := by
  cases s with
  | VarDecl name value =>
      obtain ⟨he, hc⟩ := generate_expression_extends value g
      constructor
      · simp only [generate_statement]
        exact extends_append _ he
      · simpa [generate_statement] using hc
  | Expr e =>
      obtain ⟨he, hc⟩ := generate_expression_extends e g
      exact ⟨by simpa [generate_statement] using he,
        by simpa [generate_statement] using hc⟩
  | Return e =>
      obtain ⟨he, hc⟩ := generate_expression_extends e g
      cases hv : (generate_expression g e).1 with
      | Var n =>
          constructor
          · simp only [generate_statement, hv]
            exact extends_append _ he
          · simpa [generate_statement, hv] using hc
      | Temp n =>
          constructor
          · simp only [generate_statement, hv]
            exact extends_append _ he
          · simpa [generate_statement, hv] using hc
      | Int m =>
          constructor
          · simp only [generate_statement, hv, new_temp]
            exact extends_append _ he
          · simp only [generate_statement, hv, new_temp]
            exact Nat.le_trans hc (Nat.le_succ _)
      | Bool b =>
          constructor
          · simp only [generate_statement, hv, new_temp]
            exact extends_append _ he
          · simp only [generate_statement, hv, new_temp]
            exact Nat.le_trans hc (Nat.le_succ _)
      | Str s2 =>
          constructor
          · simp only [generate_statement, hv, new_temp]
            exact extends_append _ he
          · simp only [generate_statement, hv, new_temp]
            exact Nat.le_trans hc (Nat.le_succ _)

theorem generate_body_extends : ∀ (body : List Statement) (g : IRGenerator),
    (∃ Δ, (body.foldl generate_statement g).code = g.code ++ Δ) ∧
    g.temp_counter ≤ (body.foldl generate_statement g).temp_counter := by
  intro body
  induction body with
  | nil => intro g; exact ⟨⟨[], by simp⟩, Nat.le_refl _⟩
  | cons s rest ih =>
      intro g
      obtain ⟨he₁, hc₁⟩ := generate_statement_extends s g
      obtain ⟨he₂, hc₂⟩ := ih (generate_statement g s)
      constructor
      · simp only [List.foldl_cons]
        exact extends_trans he₁ he₂
      · simp only [List.foldl_cons]
        exact Nat.le_trans hc₁ hc₂

/-- C10.  generate_function never resets the instruction buffer or the temp
counter: its output is the prior buffer followed by newly emitted
instructions, so a second call on the same generator returns a list beginning
with everything the first call returned, and the counter only grows. -/
theorem generate_function_accumulates (g : IRGenerator) (f₁ f₂ : Function) :
    (∃ Δ, (generate_function g f₁).1 = g.code ++ Δ) ∧
    (∃ Δ, (generate_function (generate_function g f₁).2 f₂).1 =
      (generate_function g f₁).1 ++ Δ) ∧
    g.temp_counter ≤ (generate_function g f₁).2.temp_counter := by
  obtain ⟨⟨Δ₁, h₁⟩, hc₁⟩ := generate_body_extends f₁.body g
  obtain ⟨⟨Δ₂, h₂⟩, hc₂⟩ := generate_body_extends f₂.body (f₁.body.foldl generate_statement g)
  exact ⟨⟨Δ₁, h₁⟩, ⟨Δ₂, h₂⟩, hc₁⟩

theorem writtenAt_append {code Δ : List IRInstr} {k : Nat} {n : String}
    (h : WrittenAt code k n) (hk : k ≤ code.length) : WrittenAt (code ++ Δ) k n := by
  obtain ⟨j, hj, i, hi, hw⟩ := h
  exact ⟨j, hj, i, by rw [List.getElem?_append_left (Nat.lt_of_lt_of_le hj hk)]; exact hi, hw⟩

theorem writtenAt_mono {code : List IRInstr} {k k' : Nat} {n : String}
    (h : WrittenAt code k n) (hk : k ≤ k') : WrittenAt code k' n := by
  obtain ⟨j, hj, i, hi, hw⟩ := h
  exact ⟨j, Nat.lt_of_lt_of_le hj hk, i, hi, hw⟩

theorem writtenIn_append {code Δ : List IRInstr} {n : String}
    (h : WrittenAt code code.length n) :
    WrittenAt (code ++ Δ) (code ++ Δ).length n :=
  writtenAt_mono (writtenAt_append h (Nat.le_refl _))
    (by simp [List.length_append])

theorem writtenAt_last {code : List IRInstr} {i : IRInstr} {n : String}
    (h : writesName i = some n) :
    WrittenAt (code ++ [i]) (code ++ [i]).length n :=
  ⟨code.length, by simp [List.length_append], i, List.getElem?_concat_length code i, h⟩

theorem goodCode_nil (S : List String) : GoodCode S [] := by
  intro k res l op r h
  simp at h

theorem goodCode_append_nonbinop {S : List String} {code Δ : List IRInstr}
    (h : GoodCode S code)
    (hΔ : ∀ i ∈ Δ, ∀ res l op r, i ≠ IRInstr.BinaryOp res l op r) :
    GoodCode S (code ++ Δ) := by
  intro k res l op r hk
  by_cases hlt : k < code.length
  · rw [List.getElem?_append_left hlt] at hk
    obtain ⟨hl, hr⟩ := h k res l op r hk
    constructor
    · rcases hl with hl | hl
      · exact Or.inl hl
      · exact Or.inr (writtenAt_append hl (Nat.le_of_lt hlt))
    · rcases hr with hr | hr
      · exact Or.inl hr
      · exact Or.inr (writtenAt_append hr (Nat.le_of_lt hlt))
  · rw [List.getElem?_append_right (Nat.le_of_not_lt hlt)] at hk
    exact absurd rfl (hΔ _ (List.getElem?_mem hk) res l op r)

theorem goodCode_append_binop {S : List String} {code : List IRInstr}
    {res l op r : String} (h : GoodCode S code)
    (hl : l ∈ S ∨ WrittenAt code code.length l)
    (hr : r ∈ S ∨ WrittenAt code code.length r) :
    GoodCode S (code ++ [.BinaryOp res l op r]) := by
  intro k res' l' op' r' hk
  rcases Nat.lt_trichotomy k code.length with hlt | heq | hgt
  · rw [List.getElem?_append_left hlt] at hk
    obtain ⟨h1, h2⟩ := h k res' l' op' r' hk
    constructor
    · rcases h1 with h1 | h1
      · exact Or.inl h1
      · exact Or.inr (writtenAt_append h1 (Nat.le_of_lt hlt))
    · rcases h2 with h2 | h2
      · exact Or.inl h2
      · exact Or.inr (writtenAt_append h2 (Nat.le_of_lt hlt))
  · subst heq
    rw [List.getElem?_concat_length] at hk
    have hinj := hk
    injection hinj with hinj
    cases hinj
    constructor
    · rcases hl with h1 | h1
      · exact Or.inl h1
      · exact Or.inr (writtenAt_append h1 (Nat.le_refl _))
    · rcases hr with h2 | h2
      · exact Or.inl h2
      · exact Or.inr (writtenAt_append h2 (Nat.le_refl _))
  · have : (code ++ [IRInstr.BinaryOp res l op r])[k]? = none :=
      List.getElem?_eq_none (by simpa [List.length_append] using hgt)
    rw [this] at hk
    exact absurd hk (by simp)

theorem spillStep_good {S : List String} (g : IRGenerator) (v : IRValue)
    (nm : String) (g' : IRGenerator) (hsp : spillStep g v = (nm, g'))
    (hgood : GoodCode S g.code)
    (hvar : ∀ n, v = .Var n → n ∈ S)
    (htemp : ∀ n, v = .Temp n → WrittenAt g.code g.code.length n) :
    GoodCode S g'.code ∧ (∃ Δ, g'.code = g.code ++ Δ) ∧
    (nm ∈ S ∨ WrittenAt g'.code g'.code.length nm) := by
  cases v with
  | Var n =>
      injection hsp with h1 h2
      subst h1; subst h2
      exact ⟨hgood, ⟨[], by simp⟩, Or.inl (hvar n rfl)⟩
  | Temp n =>
      injection hsp with h1 h2
      subst h1; subst h2
      exact ⟨hgood, ⟨[], by simp⟩, Or.inr (htemp n rfl)⟩
  | Int m =>
      injection hsp with h1 h2
      subst h1; subst h2
      refine ⟨goodCode_append_nonbinop hgood ?_, ⟨_, rfl⟩, Or.inr (writtenAt_last rfl)⟩
      intro i hi res l op r
      simp at hi
      subst hi
      simp
  | Bool b =>
      injection hsp with h1 h2
      subst h1; subst h2
      refine ⟨goodCode_append_nonbinop hgood ?_, ⟨_, rfl⟩, Or.inr (writtenAt_last rfl)⟩
      intro i hi res l op r
      simp at hi
      subst hi
      simp
  | Str s =>
      injection hsp with h1 h2
      subst h1; subst h2
      refine ⟨goodCode_append_nonbinop hgood ?_, ⟨_, rfl⟩, Or.inr (writtenAt_last rfl)⟩
      intro i hi res l op r
      simp at hi
      subst hi
      simp

theorem generate_expression_good :
    ∀ (e : Expression) (S : List String) (g : IRGenerator) (v : IRValue)
      (g' : IRGenerator),
      generate_expression g e = (v, g') →
      (∀ n, n ∈ exprIdents e → n ∈ S) → GoodCode S g.code →
      GoodCode S g'.code ∧
      (∀ n, v = .Var n → n ∈ S) ∧
      (∀ n, v = .Temp n → WrittenAt g'.code g'.code.length n) := by
  intro e
  induction e with
  | Integer m =>
      intro S g v g' hgen hS hgood
      simp only [generate_expression] at hgen
      injection hgen with h1 h2
      subst h1; subst h2
      exact ⟨hgood, fun n hn => by simp at hn, fun n hn => by simp at hn⟩
  | Boolean b =>
      intro S g v g' hgen hS hgood
      simp only [generate_expression] at hgen
      injection hgen with h1 h2
      subst h1; subst h2
      exact ⟨hgood, fun n hn => by simp at hn, fun n hn => by simp at hn⟩
  | String s =>
      intro S g v g' hgen hS hgood
      simp only [generate_expression] at hgen
      injection hgen with h1 h2
      subst h1; subst h2
      exact ⟨hgood, fun n hn => by simp at hn, fun n hn => by simp at hn⟩
  | Ident name =>
      intro S g v g' hgen hS hgood
      simp only [generate_expression] at hgen
      injection hgen with h1 h2
      subst h1; subst h2
      refine ⟨hgood, ?_, fun n hn => by simp at hn⟩
      intro n hn
      injection hn with hn
      subst hn
      exact hS name (by simp [exprIdents])
  | BinaryOp left op right ihl ihr =>
      intro S g v g' hgen hS hgood
      have hSl : ∀ n, n ∈ exprIdents left → n ∈ S := by
        intro n hn
        exact hS n (by simp [exprIdents, hn])
      have hSr : ∀ n, n ∈ exprIdents right → n ∈ S := by
        intro n hn
        exact hS n (by simp [exprIdents, hn])
      obtain ⟨v₁, g₁, h₁⟩ : ∃ v₁ g₁, generate_expression g left = (v₁, g₁) :=
        ⟨_, _, rfl⟩
      obtain ⟨v₂, g₂, h₂⟩ : ∃ v₂ g₂, generate_expression g₁ right = (v₂, g₂) :=
        ⟨_, _, rfl⟩
      obtain ⟨ln, gl, hl⟩ :
          ∃ ln gl, spillStep (new_temp g₂).2 v₁ = (ln, gl) := ⟨_, _, rfl⟩
      obtain ⟨rn, gr, hr⟩ : ∃ rn gr, spillStep gl v₂ = (rn, gr) := ⟨_, _, rfl⟩
      simp only [generate_expression, h₁, h₂, hl, hr] at hgen
      injection hgen with hv hg
      subst hv; subst hg
      obtain ⟨good₁, var₁, temp₁⟩ := ihl S g v₁ g₁ h₁ hSl hgood
      obtain ⟨good₂, var₂, temp₂⟩ := ihr S g₁ v₂ g₂ h₂ hSr good₁
      have hΔ₂ : ∃ Δ, g₂.code = g₁.code ++ Δ := by
        have := (generate_expression_extends right g₁).1
        rwa [h₂] at this
      have htempL : ∀ n, v₁ = .Temp n →
          WrittenAt (new_temp g₂).2.code (new_temp g₂).2.code.length n := by
        intro n hn
        obtain ⟨Δ₂, hΔ₂⟩ := hΔ₂
        show WrittenAt g₂.code g₂.code.length n
        rw [hΔ₂]
        exact writtenIn_append (temp₁ n hn)
      obtain ⟨goodL, hΔl, opL⟩ :=
        spillStep_good (new_temp g₂).2 v₁ ln gl hl good₂ var₁ htempL
      have htempR : ∀ n, v₂ = .Temp n →
          WrittenAt gl.code gl.code.length n := by
        intro n hn
        obtain ⟨Δl, hΔl⟩ := hΔl
        rw [hΔl]
        show WrittenAt (g₂.code ++ Δl) (g₂.code ++ Δl).length n
        exact writtenIn_append (temp₂ n hn)
      obtain ⟨goodR, hΔr, opR⟩ := spillStep_good gl v₂ rn gr hr goodL var₂ htempR
      have opL' : ln ∈ S ∨ WrittenAt gr.code gr.code.length ln := by
        rcases opL with h | h
        · exact Or.inl h
        · right
          obtain ⟨Δr, hΔr⟩ := hΔr
          rw [hΔr]
          exact writtenIn_append h
      refine ⟨?_, ?_, ?_⟩
      · show GoodCode S (gr.code ++ [.BinaryOp (new_temp g₂).1 ln op rn])
        exact goodCode_append_binop goodR opL' opR
      · intro n hn
        simp at hn
      · intro n hn
        injection hn with hn
        subst hn
        show WrittenAt (gr.code ++ [IRInstr.BinaryOp (new_temp g₂).1 ln op rn])
          (gr.code ++ [IRInstr.BinaryOp (new_temp g₂).1 ln op rn]).length (new_temp g₂).1
        exact writtenAt_last rfl

theorem generate_statement_good (s : Statement) (S : List String) (g : IRGenerator)
    (hS : ∀ n, n ∈ stmtIdents s → n ∈ S) (hgood : GoodCode S g.code) :
    GoodCode S (generate_statement g s).code := by
  cases s with
  | VarDecl name value =>
      obtain ⟨v, g₁, h⟩ : ∃ v g₁, generate_expression g value = (v, g₁) := ⟨_, _, rfl⟩
      obtain ⟨good₁, -, -⟩ := generate_expression_good value S g v g₁ h hS hgood
      simp only [generate_statement, h]
      refine goodCode_append_nonbinop good₁ ?_
      intro i hi res l op r
      simp at hi
      subst hi
      simp
  | Expr e =>
      obtain ⟨v, g₁, h⟩ : ∃ v g₁, generate_expression g e = (v, g₁) := ⟨_, _, rfl⟩
      obtain ⟨good₁, -, -⟩ := generate_expression_good e S g v g₁ h hS hgood
      simp only [generate_statement, h]
      exact good₁
  | Return e =>
      obtain ⟨v, g₁, h⟩ : ∃ v g₁, generate_expression g e = (v, g₁) := ⟨_, _, rfl⟩
      obtain ⟨good₁, -, -⟩ := generate_expression_good e S g v g₁ h hS hgood
      cases v with
      | Var n =>
          simp only [generate_statement, h]
          refine goodCode_append_nonbinop good₁ ?_
          intro i hi res l op r
          simp at hi
          subst hi
          simp
      | Temp n =>
          simp only [generate_statement, h]
          refine goodCode_append_nonbinop good₁ ?_
          intro i hi res l op r
          simp at hi
          subst hi
          simp
      | Int m =>
          simp only [generate_statement, h]
          refine goodCode_append_nonbinop good₁ ?_
          intro i hi res l op r
          simp at hi
          rcases hi with hi | hi <;> subst hi <;> simp
      | Bool b =>
          simp only [generate_statement, h]
          refine goodCode_append_nonbinop good₁ ?_
          intro i hi res l op r
          simp at hi
          rcases hi with hi | hi <;> subst hi <;> simp
      | Str s2 =>
          simp only [generate_statement, h]
          refine goodCode_append_nonbinop good₁ ?_
          intro i hi res l op r
          simp at hi
          rcases hi with hi | hi <;> subst hi <;> simp

theorem generate_body_good :
    ∀ (body : List Statement) (S : List String) (g : IRGenerator),
      (∀ s, s ∈ body → ∀ n, n ∈ stmtIdents s → n ∈ S) → GoodCode S g.code →
      GoodCode S ((body.foldl generate_statement g).code) := by
  intro body
  induction body with
  | nil => intro S g hS hgood; exact hgood
  | cons s rest ih =>
      intro S g hS hgood
      simp only [List.foldl_cons]
      refine ih S (generate_statement g s) ?_ ?_
      · intro s2 hs2 n hn
        exact hS s2 (List.mem_cons_of_mem s hs2) n hn
      · exact generate_statement_good s S g
          (hS s (List.mem_cons_self _ _)) hgood

/-- C7.  In the IR produced by generate_function on a fresh generator, both
operands of every BinaryOp are names that are either source identifiers of
the function or the target of an earlier emitted instruction (the Assign that
materializes a literal operand, or the BinaryOp producing a nested result); a
literal is never placed inline as an operand. -/
theorem binop_operands_are_materialized :
    ∀ (f : Function) (k : Nat) (res l op r : String),
      (generate_function IRGenerator.new f).1[k]? = some (.BinaryOp res l op r) →
      (l ∈ funcIdents f ∨ WrittenAt (generate_function IRGenerator.new f).1 k l) ∧
      (r ∈ funcIdents f ∨ WrittenAt (generate_function IRGenerator.new f).1 k r) := by
  intro f k res l op r h
  have hmem : ∀ s, s ∈ f.body → ∀ n, n ∈ stmtIdents s → n ∈ funcIdents f := by
    intro s hs n hn
    unfold funcIdents
    rw [List.mem_flatten]
    exact ⟨stmtIdents s, List.mem_map_of_mem _ hs, hn⟩
  have hgood : GoodCode (funcIdents f) (generate_function IRGenerator.new f).1 :=
    generate_body_good f.body (funcIdents f) IRGenerator.new hmem (goodCode_nil _)
  exact hgood k res l op r h

/-- Witness for C7: in the IR of return 2 + 3; the BinaryOp at index 2 reads
the spill temporaries t2 and t3, both written earlier. -/
theorem binop_operands_are_materialized_witness :
    ("t2" ∈ funcIdents astAddLiterals ∨
      WrittenAt (generate_function IRGenerator.new astAddLiterals).1 2 "t2") ∧
    ("t3" ∈ funcIdents astAddLiterals ∨
      WrittenAt (generate_function IRGenerator.new astAddLiterals).1 2 "t3") :=
  binop_operands_are_materialized astAddLiterals 2 "t1" "t2" "+" "t3" (by decide)

end Compiler
